import Mathlib

/-!
Verification of `lazy-transform-str` (`src/lib.rs`).

Strings are embedded as `List Char`.  The Rust callback type
`impl FnMut(&mut &str) -> TransformedPart` closes over mutable state and
mutates the cursor in place; we embed it as a state-passing function
`σ → List Char → Option (TransformedPart × List Char × σ)` taking the closure
state and the cursor and returning the verdict, the new cursor and the new
state.  A `none` result models a Rust panic inside the callback (the example
consumers call `rest.unshift().unwrap()`, which panics on an empty cursor).

The driver loops in `Transform::transform` have no termination guarantee in
the source (they rely on the callback consuming input), so the embedding is
fuel-indexed: one unit of fuel per callback invocation, with a distinguished
`fuelOut` outcome modelling non-termination.
-/

/-- Embeds `enum TransformedPart { Unchanged, Changed(String) }`. -/
inductive TransformedPart where
  | Unchanged : TransformedPart
  | Changed : List Char → TransformedPart
deriving DecidableEq, Repr

/-- Embeds `cervine::Cow<String, str>`: the borrowed-or-owned result type. -/
inductive Cow where
  | Borrowed : List Char → Cow
  | Owned : List Char → Cow
deriving DecidableEq, Repr

/-- Outcome of running the fuel-indexed driver: normal return, a callback
panic (`unwrap` on an empty cursor), or fuel exhaustion (models the
non-terminating executions the source does not guard against). -/
inductive RunResult where
  | ok : Cow → RunResult
  | panicked : RunResult
  | fuelOut : RunResult
deriving DecidableEq, Repr

/-- The embedded type of segment callbacks: closure state in, cursor in,
and (unless the callback panics) verdict, new cursor and new state out. -/
def SegFn (σ : Type) : Type :=
  σ → List Char → Option (TransformedPart × List Char × σ)

/-- The read-only text content of a `Cow` (Rust: `Deref<Target = str>`). -/
def cowText : Cow → List Char
  | .Borrowed s => s
  | .Owned s => s

/-- Embeds `gnaw::Unshift::unshift` on `&str`: removes and returns the first
character, or `none` when the string is empty. -/
def unshift : List Char → Option (Char × List Char)
  | [] => none
  | c :: rest => some (c, rest)

/-- The owned-accumulation loop of `Transform::transform`
(`while !rest.is_empty() { ... }`, src/lib.rs lines 140-148): `copied` is the
accumulator; on `Unchanged` the consumed span
`unchanged_rest[..unchanged_rest.len() - rest.len()]` is appended, on
`Changed` the replacement is appended. -/
def goOwned (f : SegFn σ) : Nat → σ → List Char → List Char → RunResult
  | 0, _, _, _ => .fuelOut
  | fuel + 1, st, rest, copied =>
    if rest = [] then .ok (.Owned copied)
    else
      match f st rest with
      | none => .panicked
      | some (.Unchanged, rest', st') =>
          goOwned f fuel st' rest' (copied ++ rest.take (rest.length - rest'.length))
      | some (.Changed changed, rest', st') =>
          goOwned f fuel st' rest' (copied ++ changed)

/-- The borrowed-search loop of `Transform::transform`
(`loop { ... }`, src/lib.rs lines 128-138): returns `Borrowed(self)` if the
cursor empties without a change; on the first `Changed` verdict it seeds the
accumulator with `self[..self.len() - unchanged_rest.len()]` plus the
replacement and switches to `goOwned`. -/
def goBorrowed (self : List Char) (f : SegFn σ) : Nat → σ → List Char → RunResult
  | 0, _, _ => .fuelOut
  | fuel + 1, st, rest =>
    if rest = [] then .ok (.Borrowed self)
    else
      match f st rest with
      | none => .panicked
      | some (.Unchanged, rest', st') => goBorrowed self f fuel st' rest'
      | some (.Changed transformed, rest', st') =>
          goOwned f fuel st' rest'
            (self.take (self.length - rest.length) ++ transformed)

/-- Embeds `Transform::transform` / the free function `transform`
(src/lib.rs lines 122-152), fuel-indexed. -/
def transform (self : List Char) (f : SegFn σ) (fuel : Nat) (st : σ) : RunResult :=
  goBorrowed self f fuel st self

/-- The per-invocation trace of a run: for each callback invocation, the
consumed span (as the driver computes it, by cursor-length difference) and
the verdict returned. -/
def runTrace (f : SegFn σ) : Nat → σ → List Char → Option (List (List Char × TransformedPart))
  | 0, _, _ => none
  | fuel + 1, st, rest =>
    if rest = [] then some []
    else
      match f st rest with
      | none => none
      | some (v, rest', st') =>
          (runTrace f fuel st' rest').map
            (fun t => (rest.take (rest.length - rest'.length), v) :: t)

/-- In-order concatenation of the consumed spans of a trace. -/
def spans : List (List Char × TransformedPart) → List Char
  | [] => []
  | (span, _) :: t => span ++ spans t

/-- In-order concatenation of per-segment contributions: the raw consumed
span for `Unchanged`, the replacement for `Changed`. -/
def contribs : List (List Char × TransformedPart) → List Char
  | [] => []
  | (span, .Unchanged) :: t => span ++ contribs t
  | (_, .Changed c) :: t => c ++ contribs t

/-- `true` when every verdict in the trace is `Unchanged`. -/
def allUnchanged : List (List Char × TransformedPart) → Bool
  | [] => true
  | (_, .Unchanged) :: t => allUnchanged t
  | (_, .Changed _) :: _ => false

/-- The caller contract assumed by the claims: on every non-empty cursor the
callback succeeds and consumes a strictly positive count of leading
characters, leaving the corresponding suffix as the new cursor. -/
def Consuming (f : SegFn σ) : Prop :=
  ∀ st rest, rest ≠ [] →
    ∃ v k st', 0 < k ∧ k ≤ rest.length ∧ f st rest = some (v, rest.drop k, st')

/-- The weaker forward-progress contract: on every non-empty cursor the
callback succeeds and strictly shrinks the cursor. -/
def Progress (f : SegFn σ) : Prop :=
  ∀ st rest, rest ≠ [] →
    ∃ v rest' st', f st rest = some (v, rest', st') ∧ rest'.length < rest.length

theorem consuming_progress {f : SegFn σ} (h : Consuming f) : Progress f := by
  intro st rest hne
  obtain ⟨v, k, st', hk, hkle, heq⟩ := h st rest hne
  refine ⟨v, rest.drop k, st', heq, ?_⟩
  rw [List.length_drop]
  omega

theorem take_span_eq (rest : List Char) (k : Nat) (hk : k ≤ rest.length) :
    rest.take (rest.length - (rest.drop k).length) = rest.take k := by
  rw [List.length_drop]
  congr 1
  omega

theorem runTrace_total {f : SegFn σ} (h : Progress f) :
    ∀ fuel st rest, rest.length < fuel → ∃ t, runTrace f fuel st rest = some t := by
  intro fuel
  induction fuel with
  | zero => intro st rest hlt; omega
  | succ fuel ih =>
    intro st rest hlt
    by_cases hne : rest = []
    · exact ⟨[], by simp [runTrace, hne]⟩
    · obtain ⟨v, rest', st', heq, hlen⟩ := h st rest hne
      obtain ⟨t', ht'⟩ := ih st' rest' (by omega)
      refine ⟨(rest.take (rest.length - rest'.length), v) :: t', ?_⟩
      simp [runTrace, hne, heq, ht']

theorem runTrace_spans {f : SegFn σ} (hc : Consuming f) :
    ∀ fuel st rest t, runTrace f fuel st rest = some t → spans t = rest := by
  intro fuel
  induction fuel with
  | zero => intro st rest t ht; simp [runTrace] at ht
  | succ fuel ih =>
    intro st rest t ht
    by_cases hne : rest = []
    · subst hne
      simp [runTrace] at ht
      subst ht
      rfl
    · obtain ⟨v, k, st', hk, hkle, heq⟩ := hc st rest hne
      simp only [runTrace, if_neg hne, heq, Option.map_eq_some'] at ht
      obtain ⟨t', ht', hcons⟩ := ht
      subst hcons
      have hspan := take_span_eq rest k hkle
      simp only [spans, hspan]
      rw [ih st' (rest.drop k) t' ht', List.take_append_drop]

theorem contribs_of_allUnchanged :
    ∀ t, allUnchanged t = true → contribs t = spans t := by
  intro t
  induction t with
  | nil => intro _; rfl
  | cons hd tl ih =>
    obtain ⟨span, v⟩ := hd
    cases v with
    | Unchanged =>
      intro h
      simp only [allUnchanged] at h
      simp only [contribs, spans, ih h]
    | Changed c => intro h; simp [allUnchanged] at h

theorem goOwned_trace {f : SegFn σ} :
    ∀ fuel st rest t copied, runTrace f fuel st rest = some t →
      goOwned f fuel st rest copied = .ok (.Owned (copied ++ contribs t)) := by
  intro fuel
  induction fuel with
  | zero => intro st rest t copied ht; simp [runTrace] at ht
  | succ fuel ih =>
    intro st rest t copied ht
    by_cases hne : rest = []
    · subst hne
      simp [runTrace] at ht
      subst ht
      simp [goOwned, contribs]
    · rcases hf : f st rest with _ | ⟨v, rest', st'⟩
      · simp [runTrace, hne, hf] at ht
      · simp only [runTrace, if_neg hne, hf, Option.map_eq_some'] at ht
        obtain ⟨t', ht', hcons⟩ := ht
        subst hcons
        cases v with
        | Unchanged =>
          simp only [goOwned, if_neg hne, hf]
          rw [ih st' rest' t' _ ht', contribs]
          simp [List.append_assoc]
        | Changed c =>
          simp only [goOwned, if_neg hne, hf]
          rw [ih st' rest' t' _ ht', contribs]
          simp [List.append_assoc]

theorem goBorrowed_trace {f : SegFn σ} (hc : Consuming f) (self : List Char) :
    ∀ fuel st n t, n ≤ self.length → runTrace f fuel st (self.drop n) = some t →
      goBorrowed self f fuel st (self.drop n) =
        .ok (cond (allUnchanged t) (.Borrowed self)
              (.Owned (self.take n ++ contribs t))) := by
  intro fuel
  induction fuel with
  | zero => intro st n t hn ht; simp [runTrace] at ht
  | succ fuel ih =>
    intro st n t hn ht
    by_cases hne : self.drop n = []
    · rw [hne] at ht ⊢
      simp [runTrace] at ht
      subst ht
      simp [goBorrowed, allUnchanged]
    · obtain ⟨v, k, st', hk, hkle, heq⟩ := hc st (self.drop n) hne
      have hlen : (self.drop n).length = self.length - n := List.length_drop n self
      have hrest : (self.drop n).drop k = self.drop (n + k) := by
        rw [List.drop_drop, Nat.add_comm]
      have hnk : n + k ≤ self.length := by omega
      simp only [runTrace, if_neg hne, heq, Option.map_eq_some'] at ht
      obtain ⟨t', ht', hcons⟩ := ht
      subst hcons
      rw [take_span_eq (self.drop n) k hkle] at *
      rw [hrest] at ht'
      cases v with
      | Unchanged =>
        simp only [goBorrowed, if_neg hne, heq]
        rw [hrest, ih st' (n + k) t' hnk ht']
        cases hau : allUnchanged t' with
        | true => simp [allUnchanged, hau]
        | false =>
          simp only [allUnchanged, hau, cond_false, contribs]
          rw [List.take_add, List.append_assoc]
      | Changed c =>
        simp only [goBorrowed, if_neg hne, heq]
        have hself : self.length - (self.drop n).length = n := by omega
        rw [hself, hrest, goOwned_trace fuel st' (self.drop (n + k)) t' _ ht']
        simp [allUnchanged, contribs, List.append_assoc]

theorem transform_trace {f : SegFn σ} (hc : Consuming f) (self : List Char)
    (fuel : Nat) (st : σ) (t : List (List Char × TransformedPart))
    (ht : runTrace f fuel st self = some t) :
    transform self f fuel st =
      .ok (cond (allUnchanged t) (.Borrowed self) (.Owned (contribs t))) := by
  have h0 : self.drop 0 = self := List.drop_zero self
  have := goBorrowed_trace hc self fuel st 0 t (Nat.zero_le _) (by rw [h0]; exact ht)
  rw [h0] at this
  simpa [transform, List.take_zero] using this

/-- The segment callback of `escape_double_quotes` (src/lib.rs lines 170-177):
take one character via `unshift().unwrap()`; on `\` or `"` report `Changed`
with a backslash prepended, otherwise `Unchanged`.  It closes over no state. -/
def escSeg : SegFn Unit := fun _ rest =>
  match unshift rest with
  | none => none
  | some (c, rest') =>
    if c = '\\' ∨ c = '"' then some (.Changed ['\\', c], rest', ())
    else some (.Unchanged, rest', ())

/-- Embeds `escape_double_quotes` (src/lib.rs lines 169-178), run with enough
fuel for its one-character-per-call callback. -/
def escape_double_quotes (s : List Char) : RunResult :=
  transform s escSeg (s.length + 1) ()

/-- The segment callback of `unescape_backslashed_verbatim`
(src/lib.rs lines 204-213): closes over the `escaped : Bool` flag; a `\` seen
while the flag is unset is dropped (`Changed` with empty replacement) and sets
the flag, anything else resets the flag and is `Unchanged`. -/
def unescSeg : SegFn Bool := fun escaped rest =>
  match unshift rest with
  | none => none
  | some (c, rest') =>
    if c = '\\' ∧ escaped = false then some (.Changed [], rest', true)
    else some (.Unchanged, rest', false)

/-- Embeds `unescape_backslashed_verbatim` (src/lib.rs lines 202-214): the
`escaped` flag starts out `false`. -/
def unescape_backslashed_verbatim (s : List Char) : RunResult :=
  transform s unescSeg (s.length + 1) false

/-- A contract-violating callback that never advances the cursor; used to show
the driver has no forward-progress guard of its own. -/
def stuckSeg : SegFn Unit := fun st rest => some (.Unchanged, rest, st)

/-- The simplest conforming callback: consume one character, change nothing. -/
def takeOne : SegFn Unit := fun st rest => some (.Unchanged, rest.drop 1, st)

/-- A conforming callback that consumes one character and returns it as a
`Changed` replacement, so the rebuilt string coincides with the input. -/
def idChange : SegFn Unit := fun st rest =>
  some (.Changed (rest.take 1), rest.drop 1, st)

theorem consuming_of_unshift {f : SegFn σ}
    (h : ∀ st c cs, ∃ v st', f st (c :: cs) = some (v, cs, st')) :
    Consuming f := by
  intro st rest hne
  match rest, hne with
  | c :: cs, _ =>
    obtain ⟨v, st', heq⟩ := h st c cs
    exact ⟨v, 1, st', Nat.one_pos, by simp, heq⟩

theorem takeOne_consuming : Consuming takeOne := by
  apply consuming_of_unshift
  intro st c cs
  exact ⟨.Unchanged, (), rfl⟩

theorem idChange_consuming : Consuming idChange := by
  apply consuming_of_unshift
  intro st c cs
  exact ⟨.Changed [c], (), rfl⟩

theorem escSeg_consuming : Consuming escSeg := by
  apply consuming_of_unshift
  intro st c cs
  by_cases h : c = '\\' ∨ c = '"'
  · exact ⟨.Changed ['\\', c], (), by simp [escSeg, unshift, h]⟩
  · exact ⟨.Unchanged, (), by simp [escSeg, unshift, h]⟩

theorem unescSeg_consuming : Consuming unescSeg := by
  apply consuming_of_unshift
  intro st c cs
  by_cases h : c = '\\' ∧ st = false
  · exact ⟨.Changed [], true, by simp [unescSeg, unshift, h]⟩
  · exact ⟨.Unchanged, false, by simp [unescSeg, unshift, h]⟩

theorem consuming_isSome {f : SegFn σ} (hc : Consuming f) :
    ∀ st rest, rest ≠ [] → (f st rest).isSome = true := by
  intro st rest hne
  obtain ⟨v, k, st', _, _, heq⟩ := hc st rest hne
  rw [heq]
  rfl

theorem goOwned_no_panic {f : SegFn σ}
    (h : ∀ st rest, rest ≠ [] → (f st rest).isSome = true) :
    ∀ fuel st rest copied, goOwned f fuel st rest copied ≠ .panicked := by
  intro fuel
  induction fuel with
  | zero => intro st rest copied; simp [goOwned]
  | succ fuel ih =>
    intro st rest copied
    by_cases hne : rest = []
    · simp [goOwned, hne]
    · rcases hf : f st rest with _ | ⟨v, rest', st'⟩
      · have := h st rest hne
        rw [hf] at this
        simp at this
      · cases v with
        | Unchanged =>
          simp only [goOwned, if_neg hne, hf]
          exact ih st' rest' _
        | Changed c =>
          simp only [goOwned, if_neg hne, hf]
          exact ih st' rest' _

theorem goBorrowed_no_panic {f : SegFn σ} (self : List Char)
    (h : ∀ st rest, rest ≠ [] → (f st rest).isSome = true) :
    ∀ fuel st rest, goBorrowed self f fuel st rest ≠ .panicked := by
  intro fuel
  induction fuel with
  | zero => intro st rest; simp [goBorrowed]
  | succ fuel ih =>
    intro st rest
    by_cases hne : rest = []
    · simp [goBorrowed, hne]
    · rcases hf : f st rest with _ | ⟨v, rest', st'⟩
      · have := h st rest hne
        rw [hf] at this
        simp at this
      · cases v with
        | Unchanged =>
          simp only [goBorrowed, if_neg hne, hf]
          exact ih st' rest'
        | Changed c =>
          simp only [goBorrowed, if_neg hne, hf]
          exact goOwned_no_panic h fuel st' rest' _

theorem stuck_fuelOut (self : List Char) :
    ∀ fuel st rest, rest ≠ [] → goBorrowed self stuckSeg fuel st rest = .fuelOut := by
  intro fuel
  induction fuel with
  | zero => intro st rest hne; rfl
  | succ fuel ih =>
    intro st rest hne
    simp only [goBorrowed, if_neg hne, stuckSeg]
    exact ih st rest hne

/-- Restates the spec's description of one escaped character: `\` and `"` get
a backslash prepended, everything else is kept as is. -/
def escChar (c : Char) : List Char :=
  if c = '\\' ∨ c = '"' then ['\\', c] else [c]

/-- Character-wise escaping of a whole string, per the spec's description of
`escape_double_quotes`. -/
def escAll : List Char → List Char
  | [] => []
  | c :: cs => escChar c ++ escAll cs

/-- The trace `escSeg` produces: one single-character span per invocation. -/
def escTrace : List Char → List (List Char × TransformedPart)
  | [] => []
  | c :: cs =>
    ([c], if c = '\\' ∨ c = '"' then .Changed ['\\', c] else .Unchanged)
      :: escTrace cs

/-- Restates the spec's description of one unescaping pass, threading the
`escaped` flag: the output text so far and the final flag value. -/
def unescRun : Bool → List Char → List Char × Bool
  | escaped, [] => ([], escaped)
  | escaped, c :: cs =>
    if c = '\\' ∧ escaped = false then unescRun true cs
    else (c :: (unescRun false cs).1, (unescRun false cs).2)

/-- The trace `unescSeg` produces from a given starting flag. -/
def unescTrace : Bool → List Char → List (List Char × TransformedPart)
  | _, [] => []
  | escaped, c :: cs =>
    if c = '\\' ∧ escaped = false then ([c], .Changed []) :: unescTrace true cs
    else ([c], .Unchanged) :: unescTrace false cs

theorem escTrace_runTrace :
    ∀ fuel rest, rest.length < fuel →
      runTrace escSeg fuel () rest = some (escTrace rest) := by
  intro fuel
  induction fuel with
  | zero => intro rest hlt; omega
  | succ fuel ih =>
    intro rest hlt
    match rest with
    | [] => simp [runTrace, escTrace]
    | c :: cs =>
      have hlen : cs.length < fuel := by
        simp only [List.length_cons] at hlt
        omega
      by_cases h : c = '\\' ∨ c = '"'
      · have hf : escSeg () (c :: cs) = some (.Changed ['\\', c], cs, ()) := by
          simp [escSeg, unshift, h]
        simp [runTrace, hf, ih cs hlen, escTrace, h]
      · have hf : escSeg () (c :: cs) = some (.Unchanged, cs, ()) := by
          simp [escSeg, unshift, h]
        simp [runTrace, hf, ih cs hlen, escTrace, h]

theorem contribs_escTrace : ∀ s, contribs (escTrace s) = escAll s := by
  intro s
  induction s with
  | nil => rfl
  | cons c cs ih =>
    by_cases h : c = '\\' ∨ c = '"'
    · simp [escTrace, contribs, escAll, escChar, h, ih]
    · simp [escTrace, contribs, escAll, escChar, h, ih]

theorem allUnchanged_escTrace :
    ∀ s, allUnchanged (escTrace s) = true ↔ ∀ c ∈ s, ¬(c = '\\' ∨ c = '"') := by
  intro s
  induction s with
  | nil => simp [escTrace, allUnchanged]
  | cons c cs ih =>
    by_cases h : c = '\\' ∨ c = '"'
    · simp [escTrace, allUnchanged, h]
      intro h1 h2
      exact absurd h (not_or.mpr ⟨h1, h2⟩)
    · push_neg at h
      simp [escTrace, allUnchanged, h, ih]

theorem unescTrace_runTrace :
    ∀ fuel esc rest, rest.length < fuel →
      runTrace unescSeg fuel esc rest = some (unescTrace esc rest) := by
  intro fuel
  induction fuel with
  | zero => intro esc rest hlt; omega
  | succ fuel ih =>
    intro esc rest hlt
    match rest with
    | [] => simp [runTrace, unescTrace]
    | c :: cs =>
      have hlen : cs.length < fuel := by
        simp only [List.length_cons] at hlt
        omega
      by_cases h : c = '\\' ∧ esc = false
      · obtain ⟨hc, hesc⟩ := h
        subst hc
        subst hesc
        have hf : unescSeg false ('\\' :: cs) = some (.Changed [], cs, true) := by
          simp [unescSeg, unshift]
        simp [runTrace, hf, ih true cs hlen, unescTrace]
      · have hf : unescSeg esc (c :: cs) = some (.Unchanged, cs, false) := by
          simp [unescSeg, unshift, h]
        simp [runTrace, hf, ih false cs hlen, unescTrace, h]

theorem contribs_unescTrace :
    ∀ s esc, contribs (unescTrace esc s) = (unescRun esc s).1 := by
  intro s
  induction s with
  | nil => intro esc; rfl
  | cons c cs ih =>
    intro esc
    by_cases h : c = '\\' ∧ esc = false
    · simp [unescTrace, contribs, unescRun, h, ih]
    · simp [unescTrace, contribs, unescRun, h, ih]

theorem goOwned_total {f : SegFn σ} (h : Progress f) :
    ∀ fuel st rest copied, rest.length < fuel →
      ∃ out, goOwned f fuel st rest copied = .ok (.Owned out) := by
  intro fuel
  induction fuel with
  | zero => intro st rest copied hlt; omega
  | succ fuel ih =>
    intro st rest copied hlt
    by_cases hne : rest = []
    · exact ⟨copied, by simp [goOwned, hne]⟩
    · obtain ⟨v, rest', st', heq, hlen⟩ := h st rest hne
      cases v with
      | Unchanged =>
        obtain ⟨out, hout⟩ := ih st' rest' (copied ++ rest.take (rest.length - rest'.length)) (by omega)
        exact ⟨out, by simp only [goOwned, if_neg hne, heq]; exact hout⟩
      | Changed c =>
        obtain ⟨out, hout⟩ := ih st' rest' (copied ++ c) (by omega)
        exact ⟨out, by simp only [goOwned, if_neg hne, heq]; exact hout⟩

theorem goBorrowed_total {f : SegFn σ} (h : Progress f) (self : List Char) :
    ∀ fuel st rest, rest.length < fuel →
      ∃ r, goBorrowed self f fuel st rest = .ok r := by
  intro fuel
  induction fuel with
  | zero => intro st rest hlt; omega
  | succ fuel ih =>
    intro st rest hlt
    by_cases hne : rest = []
    · exact ⟨.Borrowed self, by simp [goBorrowed, hne]⟩
    · obtain ⟨v, rest', st', heq, hlen⟩ := h st rest hne
      cases v with
      | Unchanged =>
        obtain ⟨r, hr⟩ := ih st' rest' (by omega)
        exact ⟨r, by simp only [goBorrowed, if_neg hne, heq]; exact hr⟩
      | Changed c =>
        obtain ⟨out, hout⟩ :=
          goOwned_total h fuel st' rest'
            (self.take (self.length - rest.length) ++ c) (by omega)
        exact ⟨.Owned out, by simp only [goBorrowed, if_neg hne, heq]; exact hout⟩

theorem spans_escTrace : ∀ s, spans (escTrace s) = s := by
  intro s
  induction s with
  | nil => rfl
  | cons c cs ih => simp [escTrace, spans, ih]

theorem spans_unescTrace : ∀ s esc, spans (unescTrace esc s) = s := by
  intro s
  induction s with
  | nil => intro esc; rfl
  | cons c cs ih =>
    intro esc
    by_cases h : c = '\\' ∧ esc = false
    · simp [unescTrace, spans, h, ih]
    · simp [unescTrace, spans, h, ih]

theorem allUnchanged_append :
    ∀ a b, allUnchanged (a ++ b) = (allUnchanged a && allUnchanged b) := by
  intro a b
  induction a with
  | nil => simp [allUnchanged]
  | cons hd tl ih =>
    obtain ⟨span, v⟩ := hd
    cases v with
    | Unchanged =>
      simp only [List.cons_append, allUnchanged]
      exact ih
    | Changed c => simp [allUnchanged]

theorem unescTrace_append :
    ∀ p esc q, unescTrace esc (p ++ q) =
      unescTrace esc p ++ unescTrace (unescRun esc p).2 q := by
  intro p
  induction p with
  | nil => intro esc q; rfl
  | cons c cs ih =>
    intro esc q
    by_cases h : c = '\\' ∧ esc = false
    · obtain ⟨hc, hesc⟩ := h
      subst hc
      subst hesc
      simp [unescTrace, unescRun, ih]
    · simp [unescTrace, unescRun, h, ih]

theorem unescRun_append :
    ∀ p esc q, unescRun esc (p ++ q) =
      ((unescRun esc p).1 ++ (unescRun (unescRun esc p).2 q).1,
        (unescRun (unescRun esc p).2 q).2) := by
  intro p
  induction p with
  | nil => intro esc q; rfl
  | cons c cs ih =>
    intro esc q
    by_cases h : c = '\\' ∧ esc = false
    · obtain ⟨hc, hesc⟩ := h
      subst hc
      subst hesc
      simp [unescRun, ih]
    · simp [unescRun, h, ih]

theorem unescRun_escAll : ∀ s, unescRun false (escAll s) = (s, false) := by
  intro s
  induction s with
  | nil => rfl
  | cons c cs ih =>
    by_cases h : c = '\\' ∨ c = '"'
    · simp [escAll, escChar, h, unescRun, ih]
    · push_neg at h
      simp [escAll, escChar, h.1, h.2, unescRun, ih]

theorem escape_spec (s : List Char) :
    escape_double_quotes s =
      .ok (cond (allUnchanged (escTrace s)) (.Borrowed s) (.Owned (escAll s))) := by
  have ht := escTrace_runTrace (s.length + 1) s (Nat.lt_succ_self _)
  have h := transform_trace escSeg_consuming s (s.length + 1) () _ ht
  simp only [escape_double_quotes]
  rw [h, contribs_escTrace]

theorem unescape_spec (s : List Char) :
    unescape_backslashed_verbatim s =
      .ok (cond (allUnchanged (unescTrace false s)) (.Borrowed s)
            (.Owned (unescRun false s).1)) := by
  have ht := unescTrace_runTrace (s.length + 1) false s (Nat.lt_succ_self _)
  have h := transform_trace unescSeg_consuming s (s.length + 1) false _ ht
  simp only [unescape_backslashed_verbatim]
  rw [h, contribs_unescTrace]

theorem escape_text (s : List Char) :
    ∃ r, escape_double_quotes s = .ok r ∧ cowText r = escAll s := by
  have h := escape_spec s
  cases hau : allUnchanged (escTrace s) with
  | true =>
    rw [hau] at h
    simp only [cond_true] at h
    refine ⟨.Borrowed s, h, ?_⟩
    have : escAll s = s := by
      rw [← contribs_escTrace, contribs_of_allUnchanged _ hau, spans_escTrace]
    simp [cowText, this]
  | false =>
    rw [hau] at h
    simp only [cond_false] at h
    exact ⟨.Owned (escAll s), h, rfl⟩

theorem unescape_text (s : List Char) :
    ∃ r, unescape_backslashed_verbatim s = .ok r ∧
      cowText r = (unescRun false s).1 := by
  have h := unescape_spec s
  cases hau : allUnchanged (unescTrace false s) with
  | true =>
    rw [hau] at h
    simp only [cond_true] at h
    refine ⟨.Borrowed s, h, ?_⟩
    have : (unescRun false s).1 = s := by
      rw [← contribs_unescTrace, contribs_of_allUnchanged _ hau, spans_unescTrace]
    simp [cowText, this]
  | false =>
    rw [hau] at h
    simp only [cond_false] at h
    exact ⟨.Owned (unescRun false s).1, h, rfl⟩

/-- C1: for every input string and every segment callback that on each
invocation consumes a strictly positive count of leading characters of the
cursor, the run has a trace whose consumed spans cover the input exactly
once, left to right, with no gaps or overlaps (their in-order concatenation
is the input), and the text of the result returned by `transform` is the
in-order concatenation of the per-segment contributions: the raw consumed
span for each `Unchanged` verdict, the supplied replacement for each
`Changed` verdict. -/
theorem transform_concat_coverage {σ : Type} (f : SegFn σ) (self : List Char)
    (st : σ) (hc : Consuming f) :
    ∃ t, runTrace f (self.length + 1) st self = some t ∧
      spans t = self ∧
      ∃ r, transform self f (self.length + 1) st = .ok r ∧
        cowText r = contribs t := by
  obtain ⟨t, ht⟩ :=
    runTrace_total (consuming_progress hc) (self.length + 1) st self (Nat.lt_succ_self _)
  refine ⟨t, ht, runTrace_spans hc _ st self t ht, ?_⟩
  refine ⟨_, transform_trace hc self _ st t ht, ?_⟩
  cases hau : allUnchanged t with
  | true =>
    simp only [cond_true, cowText]
    rw [contribs_of_allUnchanged t hau, runTrace_spans hc _ st self t ht]
  | false => simp only [cond_false, cowText]

/-- Witness for C1: the take-one-character, always-`Unchanged` callback on
input `"ab"`. -/
theorem transform_concat_coverage_witness :
    ∃ t, runTrace takeOne ((['a', 'b'] : List Char).length + 1) () ['a', 'b'] = some t ∧
      spans t = ['a', 'b'] ∧
      ∃ r, transform ['a', 'b'] takeOne ((['a', 'b'] : List Char).length + 1) () = .ok r ∧
        cowText r = contribs t :=
  transform_concat_coverage takeOne ['a', 'b'] () takeOne_consuming

/-- C2: for every input and every strictly-consuming segment callback,
`transform` returns `Borrowed` of the original input precisely when every
invocation returned `Unchanged`; as soon as some invocation returns
`Changed`, the result is `Owned` (of the accumulated contributions). -/
theorem transform_borrowed_iff_all_unchanged {σ : Type} (f : SegFn σ)
    (self : List Char) (st : σ) (hc : Consuming f)
    (t : List (List Char × TransformedPart))
    (ht : runTrace f (self.length + 1) st self = some t) :
    (transform self f (self.length + 1) st = .ok (.Borrowed self) ↔
        allUnchanged t = true) ∧
    (allUnchanged t = false →
        transform self f (self.length + 1) st = .ok (.Owned (contribs t))) := by
  have h := transform_trace hc self _ st t ht
  cases hau : allUnchanged t with
  | true =>
    rw [hau] at h
    simp [h, hau]
  | false =>
    rw [hau] at h
    simp [h, hau]

/-- Witness for C2: the take-one-character, always-`Unchanged` callback on
input `"a"`, whose trace is a single unchanged one-character segment. -/
theorem transform_borrowed_iff_all_unchanged_witness :
    (transform ['a'] takeOne ((['a'] : List Char).length + 1) () =
        .ok (.Borrowed ['a']) ↔
      allUnchanged [(['a'], TransformedPart.Unchanged)] = true) ∧
    (allUnchanged [(['a'], TransformedPart.Unchanged)] = false →
      transform ['a'] takeOne ((['a'] : List Char).length + 1) () =
        .ok (.Owned (contribs [(['a'], TransformedPart.Unchanged)]))) :=
  transform_borrowed_iff_all_unchanged takeOne ['a'] () takeOne_consuming
    [(['a'], TransformedPart.Unchanged)] (by decide)

/-- C3 counterexample: the callback that consumes one character and returns
it verbatim as a `Changed` replacement yields, on input `"a"`, an `Owned`
result whose text equals the input — refuting the claim that an `Owned`
result is never textually equal to the input. -/
theorem owned_equals_input_cex :
    transform ['a'] idChange ((['a'] : List Char).length + 1) () =
        .ok (.Owned ['a']) ∧
      cowText (.Owned ['a']) = ['a'] := by decide

/-- C3 amended: when `transform` does not return the input as `Borrowed`, it
returns a newly built `Owned` string whose text is the concatenation of the
per-segment contributions; this happens exactly when some invocation
returned `Changed`, but the `Owned` text is not guaranteed to differ from
the input. -/
theorem owned_implies_some_changed {σ : Type} (f : SegFn σ) (self : List Char)
    (st : σ) (hc : Consuming f) (t : List (List Char × TransformedPart))
    (ht : runTrace f (self.length + 1) st self = some t) (out : List Char)
    (ho : transform self f (self.length + 1) st = .ok (.Owned out)) :
    allUnchanged t = false ∧ out = contribs t := by
  have h := transform_trace hc self _ st t ht
  cases hau : allUnchanged t with
  | true =>
    rw [hau] at h
    simp only [cond_true] at h
    rw [h] at ho
    simp at ho
  | false =>
    rw [hau] at h
    simp only [cond_false] at h
    rw [h] at ho
    simp only [RunResult.ok.injEq, Cow.Owned.injEq] at ho
    exact ⟨rfl, ho.symm⟩

/-- Witness for C3's amended claim: the consume-one-return-it-verbatim
callback on input `"a"`. -/
theorem owned_implies_some_changed_witness :
    allUnchanged [(['a'], TransformedPart.Changed ['a'])] = false ∧
      ['a'] = contribs [(['a'], TransformedPart.Changed ['a'])] :=
  owned_implies_some_changed idChange ['a'] () idChange_consuming
    [(['a'], TransformedPart.Changed ['a'])] (by decide) ['a'] (by decide)

/-- C4: on the empty input, `transform` returns `Borrowed ""` for every
segment callback and every fuel bound, and the trace is empty — the segment
callback is never invoked (the result does not depend on it at all). -/
theorem transform_empty {σ : Type} (f : SegFn σ) (st : σ) (fuel : Nat) :
    transform [] f (fuel + 1) st = .ok (.Borrowed []) ∧
      runTrace f (fuel + 1) st [] = some [] := by
  constructor
  · simp [transform, goBorrowed]
  · simp [runTrace]

/-- C5: the driver invokes the segment callback only on a non-empty cursor,
in both the borrowed-search loop and the owned-accumulation loop; hence for
any callback defined on every non-empty cursor (such as the example
consumers' unconditional `unshift().unwrap()`), no invocation can hit the
panic outcome during a transform call. -/
theorem segment_fn_only_on_nonempty {σ : Type} (f : SegFn σ)
    (h : ∀ st rest, rest ≠ [] → (f st rest).isSome = true) :
    ∀ self fuel st rest copied,
      transform self f fuel st ≠ .panicked ∧
        goOwned f fuel st rest copied ≠ .panicked := by
  intro self fuel st rest copied
  exact ⟨goBorrowed_no_panic self h fuel st self,
    goOwned_no_panic h fuel st rest copied⟩

/-- Witness for C5: the `escape_double_quotes` callback, which uses the
unconditional take-one-character operation, on input `"a"`. -/
theorem segment_fn_only_on_nonempty_witness :
    transform ['a'] escSeg 2 () ≠ .panicked ∧
      goOwned escSeg 2 () ['a'] [] ≠ .panicked :=
  segment_fn_only_on_nonempty escSeg
    (consuming_isSome escSeg_consuming) ['a'] 2 () ['a'] []

/-- C6: for every callback that strictly shrinks the cursor on each
invocation, `transform` terminates normally once the fuel exceeds the input
length; and the driver itself has no forward-progress guard: with the
callback that consumes nothing, no amount of fuel ever produces a result on
a non-empty input (both scanning loops run forever). -/
theorem transform_terminates_iff_progress {σ : Type} (f : SegFn σ)
    (self : List Char) (st : σ) (fuel : Nat) (hp : Progress f)
    (hf : self.length < fuel) :
    (∃ r, transform self f fuel st = .ok r) ∧
      (self ≠ [] → ∀ fuel2 st2, transform self stuckSeg fuel2 st2 = .fuelOut) := by
  constructor
  · exact goBorrowed_total hp self fuel st self hf
  · intro hne fuel2 st2
    exact stuck_fuelOut self fuel2 st2 self hne

/-- Witness for C6: the take-one-character callback on input `"a"` with
fuel `2`. -/
theorem transform_terminates_iff_progress_witness :
    (∃ r, transform ['a'] takeOne 2 () = .ok r) ∧
      ((['a'] : List Char) ≠ [] →
        ∀ fuel2 st2, transform ['a'] stuckSeg fuel2 st2 = .fuelOut) :=
  transform_terminates_iff_progress takeOne ['a'] () 2
    (consuming_progress takeOne_consuming) (by decide)

/-- C7: `escape_double_quotes` consumes one character per segment and maps
each `\` to `\\` and each `"` to `\"`, leaving every other character as is
(its result text is the character-wise escaping of the input, and it is
`Borrowed` of the input precisely when the input contains neither `\` nor
`"`); in particular `a "quoted" word` gives the `Owned` result
`a \"quoted\" word`, and `bcd` gives the `Borrowed` result `bcd`. -/
theorem escape_double_quotes_spec (s : List Char) :
    (∃ r, escape_double_quotes s = .ok r ∧ cowText r = escAll s ∧
        (r = .Borrowed s ↔ ∀ c ∈ s, ¬(c = '\\' ∨ c = '"'))) ∧
      escape_double_quotes ("a \"quoted\" word".toList) =
        .ok (.Owned ("a \\\"quoted\\\" word".toList)) ∧
      escape_double_quotes ("bcd".toList) = .ok (.Borrowed ("bcd".toList)) := by
  refine ⟨?_, by decide, by decide⟩
  have h := escape_spec s
  cases hau : allUnchanged (escTrace s) with
  | true =>
    rw [hau] at h
    simp only [cond_true] at h
    refine ⟨.Borrowed s, h, ?_, ?_⟩
    · have heq : escAll s = s := by
        rw [← contribs_escTrace, contribs_of_allUnchanged _ hau, spans_escTrace]
      simp [cowText, heq]
    · exact iff_of_true rfl ((allUnchanged_escTrace s).mp hau)
  | false =>
    rw [hau] at h
    simp only [cond_false] at h
    refine ⟨.Owned (escAll s), h, rfl, ?_⟩
    refine iff_of_false (by simp) ?_
    intro hall
    rw [(allUnchanged_escTrace s).mpr hall] at hau
    cases hau

/-- C8: `unescape_backslashed_verbatim` performs exactly one pass of
un-escaping with an `escaped` flag starting at `false`: its result text is
the one-pass function that drops a `\` seen with the flag unset (setting the
flag) and passes every other character through (resetting the flag), so
`\\` reduces to a single `\` per pass; in particular
`A \"quoted\" word\\!` gives the `Owned` result `A "quoted" word\!`, and
applying the function again to that output gives `A "quoted" word!`. -/
theorem unescape_backslashed_verbatim_spec (s : List Char) :
    (∃ r, unescape_backslashed_verbatim s = .ok r ∧
        cowText r = (unescRun false s).1) ∧
      unescape_backslashed_verbatim ("A \\\"quoted\\\" word\\\\!".toList) =
        .ok (.Owned ("A \"quoted\" word\\!".toList)) ∧
      unescape_backslashed_verbatim ("A \"quoted\" word\\!".toList) =
        .ok (.Owned ("A \"quoted\" word!".toList)) := by
  exact ⟨unescape_text s, by decide, by decide⟩

/-- C9: unescaping the result of escaping restores the original string, for
every input: the text of
`unescape_backslashed_verbatim (escape_double_quotes s)` equals `s`. -/
theorem unescape_escape_roundtrip (s : List Char) :
    ∃ r1 r2, escape_double_quotes s = .ok r1 ∧
      unescape_backslashed_verbatim (cowText r1) = .ok r2 ∧
      cowText r2 = s := by
  obtain ⟨r1, he, ht1⟩ := escape_text s
  obtain ⟨r2, hu, ht2⟩ := unescape_text (cowText r1)
  refine ⟨r1, r2, he, hu, ?_⟩
  rw [ht2, ht1, unescRun_escAll]

/-- C10: for every input that ends in a `\` seen with the `escaped` flag
still unset (for example the one-character input `\`),
`unescape_backslashed_verbatim` returns an `Owned` result in which that
trailing backslash is silently dropped: the output is exactly the one-pass
un-escaping of the part before it. -/
theorem unescape_trailing_backslash (p : List Char)
    (hflag : (unescRun false p).2 = false) :
    unescape_backslashed_verbatim (p ++ ['\\']) =
      .ok (.Owned (unescRun false p).1) := by
  have h := unescape_spec (p ++ ['\\'])
  have hau : allUnchanged (unescTrace false (p ++ ['\\'])) = false := by
    rw [unescTrace_append, allUnchanged_append, hflag]
    simp [unescTrace, allUnchanged]
  rw [hau] at h
  simp only [cond_false] at h
  have hrun : (unescRun false (p ++ ['\\'])).1 = (unescRun false p).1 := by
    rw [unescRun_append, hflag]
    simp [unescRun]
  rw [hrun] at h
  exact h

/-- Witness for C10: the one-character input `\` is unescaped to the empty
`Owned` string. -/
theorem unescape_trailing_backslash_witness :
    unescape_backslashed_verbatim (([] : List Char) ++ ['\\']) =
      .ok (.Owned (unescRun false ([] : List Char)).1) :=
  unescape_trailing_backslash [] rfl
